import Mathlib

/-!
Verification of the subtitle cue segmentation and timing engine of the
automate-ytshorts repository, as implemented in `src/video_pipeline.py`
(class `VideoPipeline`, methods `_detect_json_format`,
`_subdivide_whisper_segment`, `_process_whisper_json`,
`_process_elevenlabs_json`).

Times are modelled as rationals (the Python code computes with decimal
literals such as 0.1, 0.3, 0.8, 1.2, 3.5; all values arising in the claims
are exact decimals).  Characters coming from the JSON payload are modelled
as `String` values, as in Python, where each entry of the `characters`
array is a string that is appended to the pending buffer.
-/

/-- Word-count accumulator mirroring Python's `len(text.split())`:
counts maximal runs of non-whitespace characters.  The boolean argument
records whether the previous character was part of a word. -/
def wordCountChars : Bool → List Char → ℕ
  | _, [] => 0
  | inWord, c :: cs =>
    if c.isWhitespace then wordCountChars false cs
    else (if inWord then 0 else 1) + wordCountChars true cs

/-- Python `len(s.split())`: number of whitespace-separated words. -/
def pyWordCount (s : String) : ℕ := wordCountChars false s.data

/-- Python `s.strip()` on a character list: drop leading and trailing
whitespace. -/
def trimChars (cs : List Char) : List Char :=
  ((cs.dropWhile Char.isWhitespace).reverse.dropWhile Char.isWhitespace).reverse

/-- Python `s.strip()`. -/
def pyStrip (s : String) : String := String.mk (trimChars s.data)

/-- A subtitle cue: a `(start, end)` time range plus the displayed text.
This is the `((start, end), text)` tuple used throughout
`video_pipeline.py`. -/
structure Cue where
  start : ℚ
  endTime : ℚ
  text : String
deriving DecidableEq, Repr

/-- Python exceptions that the modelled functions can raise. -/
inductive PyErr where
  | valueError
  | typeErr
  | keyError
  | indexError
deriving DecidableEq, Repr

/-- The strong break characters of `_process_elevenlabs_json`
(`char in {'.', '!', '?', ','}`); the payload characters are strings, so
membership is string equality. -/
def elevenStrongBreaks : List String := [".", "!", "?", ","]

/-- Cue built when a segment break fires inside the character loop of
`_process_elevenlabs_json` (lines 588-609): join and strip the buffer,
append `"..."` when the buffer reached `max_segment_chars = 60`, then
apply the word-count based buffer and minimum-duration rules with
constants `base = 0.8`, `per word = 1`, `cap = 3.5`. -/
def breakCue (segmentStart lastCharEnd : ℚ) (currentText : List String) : Cue :=
  let text0 := pyStrip (String.join currentText)
  let text := if 60 ≤ currentText.length then text0 ++ "..." else text0
  let wordCount : ℚ := (pyWordCount text : ℚ)
  let buffer := min (max (8/10) (1 * wordCount)) (7/2)
  let minDuration := min (max (8/10) (1 * wordCount)) (7/2)
  let endTime := lastCharEnd + buffer
  let endTime := if endTime - segmentStart < minDuration then segmentStart + minDuration else endTime
  ⟨segmentStart, endTime, text⟩

/-- Cue built for the stream's final non-empty buffer in
`_process_elevenlabs_json` (lines 616-634): same duration rule with the
constants scaled by 1.2 (`base = 0.2 * 1.2`, `per word = 0.5 * 1.2`) and
the cap lowered to 3.0. -/
def finalCue (segmentStart lastCharEnd : ℚ) (currentText : List String) : Cue :=
  let text := pyStrip (String.join currentText)
  let wordCount : ℚ := (pyWordCount text : ℚ)
  let buffer := min (max (2/10 * (12/10)) (1/2 * wordCount * (12/10))) 3
  let minDuration := min (max (2/10 * (12/10)) (1/2 * wordCount * (12/10))) 3
  let endTime := lastCharEnd + buffer
  let endTime := if endTime - segmentStart < minDuration then segmentStart + minDuration else endTime
  ⟨segmentStart, endTime, text⟩

/-- The character loop of `_process_elevenlabs_json` (lines 575-634).
State: the remaining `(char, start_time)` pairs, the pending buffer
`current_text`, `segment_start` and `last_char_end`.  A break fires when
the character is strong punctuation, or is a space after more than 1.5s
since the segment start, or the buffer has reached 60 characters, or the
gap to the next sample exceeds 0.5s.  At stream end a non-empty buffer is
flushed through `finalCue`. -/
def processChars : List (String × ℚ) → List String → ℚ → ℚ → List Cue
  | [], currentText, segmentStart, lastCharEnd =>
    if currentText.isEmpty then [] else [finalCue segmentStart lastCharEnd currentText]
  | (char, startTime) :: rest, currentText, segmentStart, _ =>
    let currentText := currentText ++ [char]
    let lastCharEnd := startTime + 1/10
    let isBreak : Bool :=
      decide (char ∈ elevenStrongBreaks) ||
      (decide (char = " ") && decide (startTime - segmentStart > 3/2)) ||
      decide (60 ≤ currentText.length) ||
      (match rest with
       | [] => false
       | (_, t2) :: _ => decide (t2 - startTime > 1/2))
    if isBreak then
      let cue := breakCue segmentStart lastCharEnd currentText
      let segmentStart2 := match rest with
        | [] => segmentStart
        | (_, t2) :: _ => t2
      cue :: processChars rest [] segmentStart2 lastCharEnd
    else
      processChars rest currentText segmentStart lastCharEnd

/-- One step of the transition smoother (lines 636-645): when the next cue
starts after the current one ends, extend the current end by 30% of the
gap; otherwise leave the cue unchanged. -/
def smoothCue (c n : Cue) : Cue :=
  if n.start > c.endTime
  then { c with endTime := c.endTime + (n.start - c.endTime) * (3/10) }
  else c

/-- The transition smoother: each cue is adjusted against its immediate
successor (the Python loop writes only `subtitle_entries[i]` at step `i`
and reads the not-yet-modified start of entry `i+1`, so the pass is
pairwise on the original values). -/
def smoothTransitions : List Cue → List Cue
  | [] => []
  | [c] => [c]
  | c :: n :: rest => smoothCue c n :: smoothTransitions (n :: rest)

/-- Model of `_process_elevenlabs_json` (lines 547-647) on an already-parsed
payload: a list of blocks, each holding the parallel `characters` and
`character_start_times_seconds` arrays.  A length mismatch inside a block
raises `ValueError`; the blocks are flattened and zipped; the expression
`char_timings[0][1]` raises `IndexError` when the flattened stream is
empty; otherwise the character loop runs and the smoother post-processes
the cue list. -/
def processElevenlabsJson (blocks : List (List String × List ℚ)) : Except PyErr (List Cue) :=
  if blocks.any (fun b => b.1.length ≠ b.2.length) then .error .valueError
  else
    let allCharacters := (blocks.map Prod.fst).flatten
    let allStartTimes := (blocks.map Prod.snd).flatten
    let charTimings := List.zip allCharacters allStartTimes
    match charTimings with
    | [] => .error .indexError
    | (_, t0) :: _ => .ok (smoothTransitions (processChars charTimings [] t0 t0))

/-- First-tier break characters of `_subdivide_whisper_segment`
(`strong_breaks = {'.', '!', '?'}`). -/
def strongBreakChars : List Char := ['.', '!', '?']

/-- Second-tier break characters (`medium_breaks = {';', ':', '—', '--'}`).
The source set also holds the two-character string `'--'`; a single
character is never equal to it, so that member can never match
`text[i-1]` and is omitted from the character list. -/
def mediumBreakChars : List Char := [';', ':', '—']

/-- Third-tier break characters (`weak_breaks = {',', ')', ']', '}', '"'}`). -/
def weakBreakChars : List Char := [',', ')', ']', '\x7d', '\"']

/-- Python's `for i in range(hi, lo, -1): if text[i-1] in breaks: return i`
scan: the greatest `i` with `lo < i ≤ hi` whose character `text[i-1]` is
in the break list, if any. -/
def scanBack (text : List Char) (breaks : List Char) (lo : ℕ) : ℕ → Option ℕ
  | 0 => none
  | i + 1 =>
    if i + 1 ≤ lo then none
    else if text.getD i '\x00' ∈ breaks then some (i + 1)
    else scanBack text breaks lo i

/-- Python's `text[:hi].rfind(...)` for a character predicate: the
greatest index `j < hi` whose character satisfies `p`, if any. -/
def rfindBy (text : List Char) (p : Char → Bool) : ℕ → Option ℕ
  | 0 => none
  | i + 1 => if p (text.getD i '\x00') then some i else rfindBy text p i

/-- Model of `find_best_split_point` from `_subdivide_whisper_segment` (lines
396-424): whole text if short enough, else last strong break at or before
`maxLength`, else last medium break past `int(maxLength * 0.7)`, else
last weak break past `int(maxLength * 0.8)`, else the last space before
`maxLength` when its index is positive, else a hard cut at `maxLength`. -/
def findBestSplitPoint (text : List Char) (maxLength : ℕ) : ℕ :=
  if text.length ≤ maxLength then text.length
  else
    match scanBack text strongBreakChars 0 maxLength with
    | some i => i
    | none =>
      match scanBack text mediumBreakChars (7 * maxLength / 10) maxLength with
      | some i => i
      | none =>
        match scanBack text weakBreakChars (8 * maxLength / 10) maxLength with
        | some i => i
        | none =>
          match rfindBy text (fun c => c == ' ') maxLength with
          | some j => if 0 < j then j else maxLength
          | none => maxLength

/-- The chunking loop of `_subdivide_whisper_segment` (lines 427-438):
repeatedly cut `findBestSplitPoint` characters off the front, strip each
piece and keep the non-empty ones.  The fuel argument bounds the number
of iterations; with `1 ≤ maxChars` every iteration consumes at least one
character, so fuel `text.length` reproduces the Python loop exactly. -/
def subdivideChunksGo (maxChars : ℕ) : ℕ → List Char → List (List Char)
  | 0, _ => []
  | _ + 1, [] => []
  | fuel + 1, remaining =>
    let splitPoint := findBestSplitPoint remaining maxChars
    let chunk := trimChars (remaining.take splitPoint)
    let rest := remaining.drop splitPoint
    if chunk.isEmpty then subdivideChunksGo maxChars fuel rest
    else chunk :: subdivideChunksGo maxChars fuel rest

/-- The timing loop of `_subdivide_whisper_segment` (lines 445-474):
each chunk's duration is the parent duration times its share of the
characters, weighted 1.2/1.1 when it ends on a strong/medium break,
clipped so the running time never passes `endTime`, with a 0.1s gap
subtracted from every chunk but the last and the next chunk starting
0.1s after the (possibly shortened) end. -/
def whisperTimingGo (endTime chunkDuration totalChars : ℚ) (numChunks : ℕ) :
    ℕ → ℚ → List (List Char) → List Cue
  | _, _, [] => []
  | i, currentTime, chunk :: rest =>
    let lastChar := chunk.getLastD '\x00'
    let chunkWeight : ℚ :=
      if lastChar ∈ strongBreakChars then 12/10
      else if lastChar ∈ mediumBreakChars then 11/10
      else 1
    let charRatio : ℚ := (chunk.length : ℚ) / totalChars
    let thisDuration0 := chunkDuration * charRatio * chunkWeight
    let thisDuration :=
      if currentTime + thisDuration0 > endTime then endTime - currentTime else thisDuration0
    let chunkEnd0 := currentTime + thisDuration
    let chunkEnd := if i < numChunks - 1 then chunkEnd0 - 1/10 else chunkEnd0
    ⟨currentTime, chunkEnd, String.mk chunk⟩ ::
      whisperTimingGo endTime chunkDuration totalChars numChunks (i + 1) (chunkEnd + 1/10) rest

/-- Model of `_subdivide_whisper_segment` (lines 367-474): strip the text, return
nothing when empty, a single cue when within `maxChars`, and otherwise
split by the punctuation hierarchy and apportion the parent duration. -/
def subdivideWhisperSegment (text : String) (startTime endTime : ℚ) (maxChars : ℕ) : List Cue :=
  let text := pyStrip text
  if text.data.isEmpty then []
  else if text.data.length ≤ maxChars then [⟨startTime, endTime, text⟩]
  else
    let chunks := subdivideChunksGo maxChars text.data.length text.data
    let numChunks := chunks.length
    let chunkDuration := endTime - startTime
    let totalChars : ℚ := ((chunks.map List.length).sum : ℕ)
    whisperTimingGo endTime chunkDuration totalChars numChunks 0 startTime chunks

/-- A record of the `segments` array of a Whisper payload: either all
three keys `start`, `end`, `text` are present, or the record is invalid
and skipped with a warning. -/
inductive WhisperSeg where
  | good (start stop : ℚ) (text : String)
  | invalid
deriving DecidableEq

/-- Model of `_process_whisper_json` (lines 476-527) on an already-parsed
`segments` list: records with the three keys and non-empty stripped text
are subdivided (with the default `max_chars = 50`); all other records
are skipped. -/
def processWhisperJson (segments : List WhisperSeg) : List Cue :=
  (segments.map (fun s =>
    match s with
    | .good st en tx =>
      let tx := pyStrip tx
      if tx.data.isEmpty then [] else subdivideWhisperSegment tx st en 50
    | .invalid => [])).flatten

/-- JSON values, as returned by Python's `json.load`. -/
inductive Json where
  | null
  | bool (b : Bool)
  | num (q : ℚ)
  | str (s : String)
  | arr (items : List Json)
  | obj (fields : List (String × Json))

/-- Check that `xs` starts with `pat` (plain list comparison, used for Python's
substring test). -/
def leadsWith : List Char → List Char → Bool
  | [], _ => true
  | _ :: _, [] => false
  | a :: as, b :: bs => a == b && leadsWith as bs

/-- Check that `pat` occurs as a contiguous run inside `s`: Python's
`pat in s` for strings. -/
def occursIn (pat : List Char) : List Char → Bool
  | [] => leadsWith pat []
  | b :: bs => leadsWith pat (b :: bs) || occursIn pat bs

/-- Whether to a Python string `key` some element of a JSON array is
equal; only a string member can be equal to a string. -/
def jsonEqStr (j : Json) (key : String) : Bool :=
  match j with
  | .str s => s == key
  | _ => false

/-- Python's `key in data` for a string key: key lookup on a dict,
element equality on a list, substring test on a string, and `TypeError`
on any other value. -/
def pyContains (data : Json) (key : String) : Except PyErr Bool :=
  match data with
  | .obj fields => .ok (fields.any (fun kv => kv.1 == key))
  | .arr items => .ok (items.any (fun j => jsonEqStr j key))
  | .str s => .ok (occursIn key.data s.data)
  | _ => .error .typeErr

/-- Python's `data[key]` for a string key: dict lookup (`KeyError` when
missing) and `TypeError` on any non-dict value. -/
def pyGetItem (data : Json) (key : String) : Except PyErr Json :=
  match data with
  | .obj fields =>
    match fields.find? (fun kv => kv.1 == key) with
    | some kv => .ok kv.2
    | none => .error .keyError
  | _ => .error .typeErr

/-- Python's `all(key in item for key in keys)`: short-circuiting
conjunction of membership tests. -/
def pyAllKeysIn (item : Json) : List String → Except PyErr Bool
  | [] => .ok true
  | k :: ks =>
    match pyContains item k with
    | .error e => .error e
    | .ok true => pyAllKeysIn item ks
    | .ok false => .ok false

/-- The two formats `_detect_json_format` can report. -/
inductive SubtitleFmt where
  | whisper
  | elevenlabs
deriving DecidableEq, Repr

/-- The ElevenLabs branch of `_detect_json_format` (lines 355-361):
`isinstance(data, list) and data`, then both character keys must be
"in" the first item; otherwise `ValueError`. -/
def elevenlabsCheck (data : Json) : Except PyErr SubtitleFmt :=
  match data with
  | .arr (first :: _) =>
    match pyAllKeysIn first ["characters", "character_start_times_seconds"] with
    | .error e => .error e
    | .ok true => .ok .elevenlabs
    | .ok false => .error .valueError
  | _ => .error .valueError

/-- Model of `_detect_json_format` (lines 345-361) on a parsed payload: the
Whisper shape is checked first (`'segments' in data`, `data['segments']`
a non-empty list whose first record contains `start`, `end` and `text`),
then the ElevenLabs shape, and `ValueError` is raised when neither
matches.  The `try/except` wrapper only logs and re-raises, so every
exception propagates unchanged. -/
def detectJsonFormat (data : Json) : Except PyErr SubtitleFmt :=
  match pyContains data "segments" with
  | .error e => .error e
  | .ok false => elevenlabsCheck data
  | .ok true =>
    match pyGetItem data "segments" with
    | .error e => .error e
    | .ok (.arr (first :: _)) =>
      match pyAllKeysIn first ["start", "end", "text"] with
      | .error e => .error e
      | .ok true => .ok .whisper
      | .ok false => elevenlabsCheck data
    | .ok _ => elevenlabsCheck data

/-- A Whisper segment record is usable when it has all three keys and
non-empty stripped text. -/
def whisperUsable : WhisperSeg → Bool
  | .good _ _ tx => !(pyStrip tx).data.isEmpty
  | .invalid => false

/-- The split-point selection order of `find_best_split_point`, stated
over the positions of the text: the last strong break at or before the
limit wins; else the last medium break past `int(0.7 * limit)`; else the
last weak break past `int(0.8 * limit)`; else the last space character
at a positive index before the limit; else a hard cut exactly at the
limit. -/
def SplitChoiceSpec (t : List Char) (m : ℕ) : Prop :=
  findBestSplitPoint t m ≤ m ∧
  ((∃ j, 0 < j ∧ j ≤ m ∧ t.getD (j - 1) '\x00' ∈ strongBreakChars) →
    (0 < findBestSplitPoint t m ∧
     t.getD (findBestSplitPoint t m - 1) '\x00' ∈ strongBreakChars ∧
     ∀ k, findBestSplitPoint t m < k → k ≤ m → t.getD (k - 1) '\x00' ∉ strongBreakChars)) ∧
  ((∀ j, 0 < j → j ≤ m → t.getD (j - 1) '\x00' ∉ strongBreakChars) →
   (∃ j, 7 * m / 10 < j ∧ j ≤ m ∧ t.getD (j - 1) '\x00' ∈ mediumBreakChars) →
    (7 * m / 10 < findBestSplitPoint t m ∧
     t.getD (findBestSplitPoint t m - 1) '\x00' ∈ mediumBreakChars ∧
     ∀ k, findBestSplitPoint t m < k → k ≤ m → t.getD (k - 1) '\x00' ∉ mediumBreakChars)) ∧
  ((∀ j, 0 < j → j ≤ m → t.getD (j - 1) '\x00' ∉ strongBreakChars) →
   (∀ j, 7 * m / 10 < j → j ≤ m → t.getD (j - 1) '\x00' ∉ mediumBreakChars) →
   (∃ j, 8 * m / 10 < j ∧ j ≤ m ∧ t.getD (j - 1) '\x00' ∈ weakBreakChars) →
    (8 * m / 10 < findBestSplitPoint t m ∧
     t.getD (findBestSplitPoint t m - 1) '\x00' ∈ weakBreakChars ∧
     ∀ k, findBestSplitPoint t m < k → k ≤ m → t.getD (k - 1) '\x00' ∉ weakBreakChars)) ∧
  ((∀ j, 0 < j → j ≤ m → t.getD (j - 1) '\x00' ∉ strongBreakChars) →
   (∀ j, 7 * m / 10 < j → j ≤ m → t.getD (j - 1) '\x00' ∉ mediumBreakChars) →
   (∀ j, 8 * m / 10 < j → j ≤ m → t.getD (j - 1) '\x00' ∉ weakBreakChars) →
   (∃ j, 0 < j ∧ j < m ∧ t.getD j '\x00' = ' ') →
    (0 < findBestSplitPoint t m ∧ findBestSplitPoint t m < m ∧
     t.getD (findBestSplitPoint t m) '\x00' = ' ' ∧
     ∀ k, findBestSplitPoint t m < k → k < m → t.getD k '\x00' ≠ ' ')) ∧
  ((∀ j, 0 < j → j ≤ m → t.getD (j - 1) '\x00' ∉ strongBreakChars) →
   (∀ j, 7 * m / 10 < j → j ≤ m → t.getD (j - 1) '\x00' ∉ mediumBreakChars) →
   (∀ j, 8 * m / 10 < j → j ≤ m → t.getD (j - 1) '\x00' ∉ weakBreakChars) →
   (∀ j, 0 < j → j < m → t.getD j '\x00' ≠ ' ') →
    findBestSplitPoint t m = m)

/-- Modelled from the spec (wording of claim C5): the same split-point
cascade, but looking for "the last whitespace before the limit" — any
whitespace character — where the code's `rfind(' ')` looks only for the
space character. -/
def claimSplitPoint (text : List Char) (maxLength : ℕ) : ℕ :=
  if text.length ≤ maxLength then text.length
  else
    match scanBack text strongBreakChars 0 maxLength with
    | some i => i
    | none =>
      match scanBack text mediumBreakChars (7 * maxLength / 10) maxLength with
      | some i => i
      | none =>
        match scanBack text weakBreakChars (8 * maxLength / 10) maxLength with
        | some i => i
        | none =>
          match rfindBy text (fun c => c.isWhitespace) maxLength with
          | some j => if 0 < j then j else maxLength
          | none => maxLength

/-- A JSON object has key `k`. -/
def hasKey (fields : List (String × Json)) (k : String) : Bool :=
  fields.any (fun kv => kv.1 == k)

/-- The claim's character-level shape: a list whose first item is an
object with the keys `characters` and `character_start_times_seconds`. -/
def characterShape (data : Json) : Bool :=
  match data with
  | .arr (.obj fields :: _) =>
    hasKey fields "characters" && hasKey fields "character_start_times_seconds"
  | _ => false

/-- The claim's segment-level shape: an object whose `segments` key holds
a non-empty list whose first record is an object with the keys `start`,
`end` and `text`. -/
def segmentShape (data : Json) : Bool :=
  match data with
  | .obj fields =>
    match fields.find? (fun kv => kv.1 == "segments") with
    | some kv =>
      match kv.2 with
      | .arr (.obj sfields :: _) =>
        hasKey sfields "start" && hasKey sfields "end" && hasKey sfields "text"
      | _ => false
    | none => false
  | _ => false

/-- Shape of the value under the `segments` key: a non-empty array whose
first record is an object with the keys `start`, `end` and `text`. -/
def segRecordsShape : Json → Bool
  | .arr (.obj sfields :: _) =>
    hasKey sfields "start" && hasKey sfields "end" && hasKey sfields "text"
  | _ => false

/-- The head of a JSON array, if non-empty, is an object. -/
def headIsObj : Json → Prop
  | .arr (h :: _) => ∃ f, h = Json.obj f
  | _ => True

/-- Payloads on which Python's `in`/`[...]` operators behave like shape
tests: an object whose `segments` value, when a non-empty array, starts
with an object; or an array of objects.  Outside this set the membership
operators act on strings and lists (substring and element tests) and the
detector misclassifies or raises `TypeError`. -/
def wellShapedPayload (data : Json) : Prop :=
  (∃ fields, data = Json.obj fields ∧ ∀ kv ∈ fields, kv.1 = "segments" → headIsObj kv.2) ∨
  (∃ items, data = Json.arr items ∧ ∀ j ∈ items, ∃ f, j = Json.obj f)

/-! ## Lemmas about the transition smoother -/

theorem smoothCue_start (c n : Cue) : (smoothCue c n).start = c.start := by
  unfold smoothCue; split <;> rfl

theorem smoothCue_text (c n : Cue) : (smoothCue c n).text = c.text := by
  unfold smoothCue; split <;> rfl

theorem smoothTransitions_length (l : List Cue) :
    (smoothTransitions l).length = l.length := by
  induction l with
  | nil => rfl
  | cons c rest ih =>
    cases rest with
    | nil => rfl
    | cons n rest2 => simpa [smoothTransitions] using ih

theorem smoothTransitions_getElem? (l : List Cue) (i : ℕ) (c n : Cue)
    (hc : l[i]? = some c) (hn : l[i + 1]? = some n) :
    (smoothTransitions l)[i]? = some (smoothCue c n) := by
  induction l generalizing i with
  | nil => simp at hc
  | cons a rest ih =>
    cases rest with
    | nil =>
      rcases i with _ | i
      · simp at hn
      · simp at hc
    | cons b rest2 =>
      rcases i with _ | i
      · simp at hc hn
        subst hc
        have hb : b = n := by simpa using hn
        subst hb
        simp [smoothTransitions]
      · have hc2 : (b :: rest2)[i]? = some c := by simpa using hc
        have hn2 : (b :: rest2)[i + 1]? = some n := by simpa using hn
        have := ih i hc2 hn2
        simpa [smoothTransitions] using this

theorem smoothTransitions_map_start (l : List Cue) :
    (smoothTransitions l).map Cue.start = l.map Cue.start := by
  induction l with
  | nil => rfl
  | cons c rest ih =>
    cases rest with
    | nil => rfl
    | cons n rest2 =>
      simp only [smoothTransitions, List.map_cons, smoothCue_start]
      rw [ih]
      simp

/-- C3: the transition smoother, walking the ordered cue list pairwise,
acts exactly when `next.start > current.end`, replacing `current.end`
with `current.end + 0.3 * (next.start - current.end)`; it never makes two
cues overlap when they did not overlap before, never eliminates a
positive gap, and leaves abutting or overlapping pairs unchanged; on
`((0,1),"A")`, `((1.5,2),"B")` the first end becomes 1.15 and the second
cue is unchanged. -/
theorem transition_smoother_spec :
    (∀ (l : List Cue) (i : ℕ) (c n : Cue), l[i]? = some c → l[i + 1]? = some n →
      (smoothTransitions l).length = l.length ∧
      (smoothTransitions l).map Cue.start = l.map Cue.start ∧
      (smoothTransitions l)[i]? = some (smoothCue c n) ∧
      (c.endTime < n.start →
        smoothCue c n = ⟨c.start, c.endTime + (n.start - c.endTime) * (3/10), c.text⟩ ∧
        c.endTime < (smoothCue c n).endTime ∧ (smoothCue c n).endTime < n.start) ∧
      (n.start ≤ c.endTime → smoothCue c n = c)) ∧
    smoothTransitions [⟨0, 1, "A"⟩, ⟨3/2, 2, "B"⟩] = [⟨0, 23/20, "A"⟩, ⟨3/2, 2, "B"⟩] := by
  constructor
  · intro l i c n hc hn
    refine ⟨smoothTransitions_length l, smoothTransitions_map_start l,
      smoothTransitions_getElem? l i c n hc hn, ?_, ?_⟩
    · intro hgap
      have hif : smoothCue c n = ⟨c.start, c.endTime + (n.start - c.endTime) * (3/10), c.text⟩ := by
        unfold smoothCue
        rw [if_pos hgap]
      have hpos : (0 : ℚ) < n.start - c.endTime := sub_pos.mpr hgap
      refine ⟨hif, ?_, ?_⟩
      · rw [hif]
        show c.endTime < c.endTime + (n.start - c.endTime) * (3/10)
        nlinarith
      · rw [hif]
        show c.endTime + (n.start - c.endTime) * (3/10) < n.start
        nlinarith
    · intro hle
      unfold smoothCue
      rw [if_neg (not_lt.mpr hle)]
  · norm_num [smoothTransitions, smoothCue]

/-- Witness for C3: the general part instantiated at the concrete pair of
cues of Scenario D. -/
theorem transition_smoother_spec_witness :
    (([⟨0, 1, "A"⟩, ⟨3/2, 2, "B"⟩] : List Cue)[0]? = some ⟨0, 1, "A"⟩) ∧
    (([⟨0, 1, "A"⟩, ⟨3/2, 2, "B"⟩] : List Cue)[1]? = some ⟨3/2, 2, "B"⟩) ∧
    ((smoothTransitions [⟨0, 1, "A"⟩, ⟨3/2, 2, "B"⟩]).length =
        ([⟨0, 1, "A"⟩, ⟨3/2, 2, "B"⟩] : List Cue).length ∧
      (smoothTransitions [⟨0, 1, "A"⟩, ⟨3/2, 2, "B"⟩]).map Cue.start =
        ([⟨0, 1, "A"⟩, ⟨3/2, 2, "B"⟩] : List Cue).map Cue.start ∧
      (smoothTransitions [⟨0, 1, "A"⟩, ⟨3/2, 2, "B"⟩])[0]? =
        some (smoothCue ⟨0, 1, "A"⟩ ⟨3/2, 2, "B"⟩) ∧
      ((1 : ℚ) < 3/2 →
        smoothCue (⟨0, 1, "A"⟩ : Cue) ⟨3/2, 2, "B"⟩ = ⟨0, 1 + (3/2 - 1) * (3/10), "A"⟩ ∧
        (1 : ℚ) < (smoothCue (⟨0, 1, "A"⟩ : Cue) ⟨3/2, 2, "B"⟩).endTime ∧
        (smoothCue (⟨0, 1, "A"⟩ : Cue) ⟨3/2, 2, "B"⟩).endTime < 3/2) ∧
      ((3/2 : ℚ) ≤ 1 → smoothCue (⟨0, 1, "A"⟩ : Cue) ⟨3/2, 2, "B"⟩ = ⟨0, 1, "A"⟩)) :=
  ⟨rfl, rfl, transition_smoother_spec.1 _ 0 _ _ rfl rfl⟩

/-! ## Lemmas about the character loop -/

theorem breakCue_start (s l : ℚ) (ct : List String) : (breakCue s l ct).start = s := rfl

theorem finalCue_start (s l : ℚ) (ct : List String) : (finalCue s l ct).start = s := rfl

theorem processChars_start_bounds (l : List (String × ℚ)) :
    ∀ (ct : List String) (s lce : ℚ),
      (∀ t ∈ l.map Prod.snd, s ≤ t) →
      List.Pairwise (· ≤ ·) (l.map Prod.snd) →
      (∀ c ∈ processChars l ct s lce, s ≤ c.start) ∧
      List.Pairwise (fun a b : Cue => a.start ≤ b.start) (processChars l ct s lce) := by
  induction l with
  | nil =>
    intro ct s lce _ _
    by_cases h : ct.isEmpty
    · constructor
      · intro c hc
        simp [processChars, h] at hc
      · simp [processChars, h]
    · constructor
      · intro c hc
        simp only [processChars, if_neg h, List.mem_singleton] at hc
        subst hc
        rw [finalCue_start]
      · simp only [processChars, if_neg h]
        exact List.pairwise_singleton _ _
  | cons p rest ih =>
    obtain ⟨char, t⟩ := p
    intro ct s lce hall hpw
    have hst : s ≤ t := hall t (by simp)
    have hall2 : ∀ x ∈ rest.map Prod.snd, t ≤ x := (List.pairwise_cons.mp (by simpa using hpw)).1
    have hpw2 : List.Pairwise (· ≤ ·) (rest.map Prod.snd) :=
      (List.pairwise_cons.mp (by simpa using hpw)).2
    simp only [processChars]
    split
    · cases rest with
      | nil =>
        constructor
        · intro c hc
          simp only [processChars, List.isEmpty_nil, if_true, List.mem_singleton] at hc
          subst hc
          rw [breakCue_start]
        · simp only [processChars, List.isEmpty_nil, if_true]
          exact List.pairwise_singleton _ _
      | cons q rest2 =>
        obtain ⟨c2, t2⟩ := q
        have hst2 : s ≤ t2 := hall t2 (by simp)
        have hrec := ih [] t2 (t + 1/10)
          (by
            intro x hx
            simp only [List.map_cons, List.mem_cons] at hx
            rcases hx with hx | hx
            · exact le_of_eq hx.symm
            · exact (List.pairwise_cons.mp hpw2).1 x hx)
          hpw2
        constructor
        · intro c hc
          rcases List.mem_cons.mp hc with hc | hc
          · subst hc; rw [breakCue_start]
          · exact hst2.trans (hrec.1 c hc)
        · refine List.pairwise_cons.mpr ⟨?_, hrec.2⟩
          intro c hc
          rw [breakCue_start]
          exact hst2.trans (hrec.1 c hc)
    · exact ih (ct ++ [char]) s (t + 1/10)
        (fun x hx => (hst.trans (hall2 x hx))) hpw2

theorem map_snd_zip_sublist {α β : Type} :
    ∀ (a : List α) (b : List β), ((a.zip b).map Prod.snd).Sublist b
  | [], _ => by simp
  | _ :: _, [] => by simp
  | x :: xs, y :: ys => by
    simp only [List.zip_cons_cons, List.map_cons]
    exact (map_snd_zip_sublist xs ys).cons₂ y

/-- C4 (amended): for every valid payload (non-decreasing timestamps) the
output cue list is non-decreasing in `start`.  The second half of the
original ordering invariant — `cue[i].end <= cue[i+1].start + epsilon` —
fails on the code (see the counterexample): the word-count buffer can push
a cue's end far past the next cue's start, and the smoother only ever
extends ends, never shrinks them. -/
theorem cue_starts_monotone (blocks : List (List String × List ℚ)) (cues : List Cue)
    (hpw : List.Pairwise (· ≤ ·) ((blocks.map Prod.snd).flatten))
    (hok : processElevenlabsJson blocks = .ok cues) :
    List.Pairwise (fun a b : Cue => a.start ≤ b.start) cues := by
  unfold processElevenlabsJson at hok
  split at hok
  · exact absurd hok (by simp)
  · dsimp only at hok
    split at hok
    · exact absurd hok (by simp)
    · rename_i c0 t0 tail heq
      have hcues : cues = smoothTransitions (processChars ((c0, t0) :: tail) [] t0 t0) := by
        injection hok with h
        rw [← h, heq]
      have hsub : (((c0, t0) :: tail).map Prod.snd).Sublist ((blocks.map Prod.snd).flatten) := by
        rw [← heq]
        exact map_snd_zip_sublist _ _
      have hpwz : List.Pairwise (· ≤ ·) (((c0, t0) :: tail).map Prod.snd) :=
        hpw.sublist hsub
      have hall : ∀ x ∈ ((c0, t0) :: tail).map Prod.snd, t0 ≤ x := by
        intro x hx
        simp only [List.map_cons, List.mem_cons] at hx
        rcases hx with hx | hx
        · exact le_of_eq hx.symm
        · exact (List.pairwise_cons.mp (by simpa using hpwz)).1 x hx
      have hmain := (processChars_start_bounds ((c0, t0) :: tail) [] t0 t0 hall hpwz).2
      have hmap : List.Pairwise (· ≤ ·)
          ((processChars ((c0, t0) :: tail) [] t0 t0).map Cue.start) :=
        List.pairwise_map.mpr hmain
      rw [hcues]
      refine List.pairwise_map.mp ?_
      rw [smoothTransitions_map_start]
      exact hmap

/-- Counterexample for C4 as stated: on the valid character-level payload
`["H","i",",","a"]` at times `[0, 0.1, 0.2, 0.3]` the first cue ends at
1.3 while the second starts at 0.3, so `cue[0].end <= cue[1].start + eps`
fails (here with `eps = 1/2`; the overrun is a full second). -/
theorem cue_overlap_counterexample :
    processElevenlabsJson [(["H", "i", ",", "a"], [0, 1/10, 2/10, 3/10])] =
      .ok [⟨0, 13/10, "Hi,"⟩, ⟨3/10, 1, "a"⟩] ∧
    ¬((13 : ℚ)/10 ≤ 3/10 + 1/2) := by
  constructor
  · norm_num +decide [processElevenlabsJson, processChars, breakCue, finalCue, smoothTransitions,
      smoothCue, pyStrip, pyWordCount, wordCountChars, trimChars, elevenStrongBreaks,
      min_def, max_def]
  · norm_num

/-- Witness for C4: the monotonicity theorem applied to the same concrete
payload. -/
theorem cue_starts_monotone_witness :
    List.Pairwise (· ≤ ·) ((([(["H", "i", ",", "a"], [0, 1/10, 2/10, 3/10])] :
      List (List String × List ℚ)).map Prod.snd).flatten) ∧
    processElevenlabsJson [(["H", "i", ",", "a"], [0, 1/10, 2/10, 3/10])] =
      .ok [⟨0, 13/10, "Hi,"⟩, ⟨3/10, 1, "a"⟩] ∧
    List.Pairwise (fun a b : Cue => a.start ≤ b.start)
      [⟨0, 13/10, "Hi,"⟩, ⟨3/10, 1, "a"⟩] := by
  have h1 : List.Pairwise (· ≤ ·) ((([(["H", "i", ",", "a"], [0, 1/10, 2/10, 3/10])] :
      List (List String × List ℚ)).map Prod.snd).flatten) := by
    norm_num [List.pairwise_cons]
  have h2 : processElevenlabsJson [(["H", "i", ",", "a"], [0, 1/10, 2/10, 3/10])] =
      .ok [⟨0, 13/10, "Hi,"⟩, ⟨3/10, 1, "a"⟩] := by
    norm_num +decide [processElevenlabsJson, processChars, breakCue, finalCue, smoothTransitions,
      smoothCue, pyStrip, pyWordCount, wordCountChars, trimChars, elevenStrongBreaks,
      min_def, max_def]
  exact ⟨h1, h2, cue_starts_monotone _ _ h1 h2⟩

/-! ## The duration allocation rule -/

theorem endTimeRule (s l B : ℚ) :
    (if l + B - s < B then s + B else l + B) = max (l + B) (s + B) ∧
    B ≤ (if l + B - s < B then s + B else l + B) - s := by
  constructor
  · split_ifs with h
    · rw [max_eq_right (by linarith)]
    · rw [max_eq_left (by linarith)]
  · split_ifs with h
    · linarith
    · linarith

/-- C1 (amended): on the break path the buffer and the minimum duration
are both `min(max(0.8, 1 * w), 3.5)` seconds, `w` the word count of the
emitted text (not `clamp(0.5 * w, 0.2, 2.5)` as the spec stated), the end
time is the larger of `last_char_end + buffer` and
`provisional_start + min_duration`, and every break-path cue satisfies
`end - start >= min_duration(w)` before smoothing. -/
theorem break_cue_duration_rule (s l : ℚ) (ct : List String) :
    (breakCue s l ct).start = s ∧
    (breakCue s l ct).endTime =
      max (l + min (max (8/10) (1 * (pyWordCount (breakCue s l ct).text : ℚ))) (7/2))
          (s + min (max (8/10) (1 * (pyWordCount (breakCue s l ct).text : ℚ))) (7/2)) ∧
    min (max (8/10) (1 * (pyWordCount (breakCue s l ct).text : ℚ))) (7/2) ≤
      (breakCue s l ct).endTime - (breakCue s l ct).start := by
  have hend : (breakCue s l ct).endTime =
      (if l + min (max (8/10) (1 * (pyWordCount (breakCue s l ct).text : ℚ))) (7/2) - s <
          min (max (8/10) (1 * (pyWordCount (breakCue s l ct).text : ℚ))) (7/2) then
        s + min (max (8/10) (1 * (pyWordCount (breakCue s l ct).text : ℚ))) (7/2)
      else l + min (max (8/10) (1 * (pyWordCount (breakCue s l ct).text : ℚ))) (7/2)) := rfl
  refine ⟨rfl, ?_, ?_⟩
  · rw [hend]
    exact (endTimeRule s l _).1
  · rw [hend]
    show min (max (8/10) (1 * (pyWordCount (breakCue s l ct).text : ℚ))) (7/2) ≤ _ - s
    exact (endTimeRule s l _).2

/-- Counterexample for C1 as stated: on the payload `["a","!"]` at times
`[0, 0.1]` the break-path cue ends at 1.2, not at
`last_char_end + clamp(0.5 * 1, 0.2, 2.5) = 0.2 + 0.5 = 0.7` as the
spec's formula predicts. -/
theorem spec_duration_formula_counterexample :
    processElevenlabsJson [(["a", "!"], [0, 1/10])] = .ok [⟨0, 6/5, "a!"⟩] ∧
    pyWordCount "a!" = 1 ∧
    ¬((6 : ℚ)/5 = (1/10 + 1/10) + min (max ((1/2) * 1) (2/10)) (5/2)) := by
  refine ⟨?_, by decide, by norm_num⟩
  norm_num +decide [processElevenlabsJson, processChars, breakCue, finalCue, smoothTransitions,
    smoothCue, pyStrip, pyWordCount, wordCountChars, trimChars, elevenStrongBreaks,
    min_def, max_def]

/-- C8: the stream's final chunk gets its buffer and minimum duration from
`min(max(0.2 * 1.2, 0.5 * w * 1.2), 3.0)` — the spec's §4.4 formula with
every constant scaled by 1.2 and the cap raised to 3.0 — and satisfies
the corresponding duration floor. -/
theorem final_cue_duration_rule (s l : ℚ) (ct : List String) :
    (finalCue s l ct).start = s ∧
    (finalCue s l ct).text = pyStrip (String.join ct) ∧
    (finalCue s l ct).endTime =
      max (l + min (max ((2/10) * (12/10))
            ((1/2) * (pyWordCount (pyStrip (String.join ct)) : ℚ) * (12/10))) 3)
          (s + min (max ((2/10) * (12/10))
            ((1/2) * (pyWordCount (pyStrip (String.join ct)) : ℚ) * (12/10))) 3) ∧
    min (max ((2/10) * (12/10))
        ((1/2) * (pyWordCount (pyStrip (String.join ct)) : ℚ) * (12/10))) 3 ≤
      (finalCue s l ct).endTime - (finalCue s l ct).start := by
  have hend : (finalCue s l ct).endTime =
      (if l + min (max ((2/10) * (12/10))
            ((1/2) * (pyWordCount (pyStrip (String.join ct)) : ℚ) * (12/10))) 3 - s <
          min (max ((2/10) * (12/10))
            ((1/2) * (pyWordCount (pyStrip (String.join ct)) : ℚ) * (12/10))) 3 then
        s + min (max ((2/10) * (12/10))
            ((1/2) * (pyWordCount (pyStrip (String.join ct)) : ℚ) * (12/10))) 3
      else l + min (max ((2/10) * (12/10))
            ((1/2) * (pyWordCount (pyStrip (String.join ct)) : ℚ) * (12/10))) 3) := rfl
  refine ⟨rfl, rfl, ?_, ?_⟩
  · rw [hend]
    exact (endTimeRule s l _).1
  · rw [hend]
    show min (max ((2/10) * (12/10))
        ((1/2) * (pyWordCount (pyStrip (String.join ct)) : ℚ) * (12/10))) 3 ≤ _ - s
    exact (endTimeRule s l _).2

/-- Counterexample for C2 as stated: a whitespace-only buffer is not
dropped: the single-space payload at time 0 yields a cue whose text is
empty after trimming (its word count is 0), emitted by the final-segment
path. -/
theorem empty_text_drop_counterexample :
    processElevenlabsJson [([" "], [0])] = .ok [⟨0, 17/50, ""⟩] ∧
    pyWordCount (pyStrip (String.join [" "])) = 0 := by
  refine ⟨?_, by decide⟩
  norm_num +decide [processElevenlabsJson, processChars, breakCue, finalCue, smoothTransitions,
    smoothCue, pyStrip, pyWordCount, wordCountChars, trimChars, elevenStrongBreaks,
    min_def, max_def]

/-- C2 (amended): chunks whose trimmed text is empty are NOT dropped:
both the break-triggered path (first cue, break fired by the >0.5s gap)
and the final-segment path (second cue) emit whitespace-only buffers as
cues with empty text.  No non-empty-text invariant holds. -/
theorem empty_text_cue_emitted :
    processElevenlabsJson [([" ", " "], [0, 2])] =
      .ok [⟨0, 123/100, ""⟩, ⟨2, 117/50, ""⟩] ∧
    pyStrip "" = "" ∧ pyWordCount "" = 0 := by
  refine ⟨?_, by decide, by decide⟩
  norm_num +decide [processElevenlabsJson, processChars, breakCue, finalCue, smoothTransitions,
    smoothCue, pyStrip, pyWordCount, wordCountChars, trimChars, elevenStrongBreaks,
    min_def, max_def]

/-- Counterexample for C7 as stated: a character-level payload that
parses but yields zero samples does not give an empty cue list — the
subscript `char_timings[0][1]` raises `IndexError`. -/
theorem empty_stream_error_counterexample :
    processElevenlabsJson [([], [])] = .error .indexError ∧
    ¬(processElevenlabsJson [([], [])] = .ok []) := by
  refine ⟨rfl, fun h => ?_⟩
  rw [show processElevenlabsJson [([], [])] = .error .indexError from rfl] at h
  exact Except.noConfusion h



/-- C7 (amended): the segment-level path returns an empty cue list, with
no error, whenever no segment is usable; the character-level path instead
raises `IndexError` whenever the flattened sample stream is empty (the
claim's "returns an empty Cue list" holds only for the segment-level
path). -/
theorem empty_input_behavior :
    (∀ segs : List WhisperSeg, (∀ s ∈ segs, whisperUsable s = false) →
      processWhisperJson segs = []) ∧
    (∀ blocks : List (List String × List ℚ), (∀ b ∈ blocks, b.1 = [] ∧ b.2 = []) →
      processElevenlabsJson blocks = .error .indexError) := by
  constructor
  · intro segs
    induction segs with
    | nil => intro _; rfl
    | cons s rest ih =>
      intro h
      have hs := h s (List.mem_cons_self s rest)
      have hrest := ih (fun x hx => h x (List.mem_cons_of_mem s hx))
      unfold processWhisperJson at hrest ⊢
      simp only [List.map_cons, List.flatten_cons, hrest, List.append_nil]
      cases s with
      | invalid => rfl
      | good st en tx =>
        simp only [whisperUsable, Bool.not_eq_false'] at hs
        simp [hs]
  · intro blocks h
    unfold processElevenlabsJson
    have hnomis : ¬((blocks.any fun b => decide (b.1.length ≠ b.2.length)) = true) := by
      simp only [List.any_eq_true, decide_eq_true_eq, not_exists]
      intro b hb
      rcases h b hb.1 with ⟨h1, h2⟩
      exact hb.2 (by simp [h1, h2])
    rw [if_neg hnomis]
    have hchars : (blocks.map Prod.fst).flatten = [] := by
      rw [List.flatten_eq_nil_iff]
      intro l hl
      rcases List.mem_map.mp hl with ⟨b, hb, rfl⟩
      exact (h b hb).1
    simp [hchars]

/-- Witness for C7: both halves applied at concrete inputs — an invalid
record plus a whitespace-only record for the segment-level path, and a
single empty block for the character-level path. -/
theorem empty_input_behavior_witness :
    (∀ s ∈ ([.invalid, .good 0 1 "  "] : List WhisperSeg), whisperUsable s = false) ∧
    processWhisperJson [.invalid, .good 0 1 "  "] = [] ∧
    (∀ b ∈ ([([], [])] : List (List String × List ℚ)), b.1 = [] ∧ b.2 = []) ∧
    processElevenlabsJson [([], [])] = .error .indexError := by
  have h1 : ∀ s ∈ ([.invalid, .good 0 1 "  "] : List WhisperSeg), whisperUsable s = false := by
    decide
  have h2 : ∀ b ∈ ([([], [])] : List (List String × List ℚ)), b.1 = [] ∧ b.2 = [] := by
    simp
  exact ⟨h1, empty_input_behavior.1 _ h1, h2, empty_input_behavior.2 _ h2⟩

/-- Counterexample for C9 as stated: on Scenario A's payload the single
cue ends at 1.5, produced by the break path; the final-segment bonus
formula would instead have ended it at 1.1 (`finalCue` at the same
provisional start 0, last character end 0.5 and buffer `["H","i","!"]`),
so the bonus is not applied. -/
theorem scenario_a_bonus_counterexample :
    processElevenlabsJson [(["H", "i", "!"], [0, 2/10, 4/10])] = .ok [⟨0, 3/2, "Hi!"⟩] ∧
    finalCue 0 (1/2) ["H", "i", "!"] = ⟨0, 11/10, "Hi!"⟩ ∧
    ((3 : ℚ)/2 ≠ 11/10) := by
  refine ⟨?_, ?_, by norm_num⟩
  · norm_num +decide [processElevenlabsJson, processChars, breakCue, finalCue, smoothTransitions,
      smoothCue, pyStrip, pyWordCount, wordCountChars, trimChars, elevenStrongBreaks,
      min_def, max_def]
  · norm_num +decide [finalCue, pyStrip, pyWordCount, wordCountChars, trimChars,
      min_def, max_def]

/-- C9 (amended): Scenario A's payload yields exactly one cue
`((0.0, 1.5), "Hi!")` whose end is at least `0.2 + buffer`; the `!`
break fires inside the character loop, so the cue is the break-path cue
(with the standard constants and buffer 1.0 for one word), and the
final-segment bonus branch never runs because the buffer is empty at
stream end. -/
theorem scenario_a_break_path :
    processElevenlabsJson [(["H", "i", "!"], [0, 2/10, 4/10])] = .ok [⟨0, 3/2, "Hi!"⟩] ∧
    breakCue 0 (4/10 + 1/10) ["H", "i", "!"] = ⟨0, 3/2, "Hi!"⟩ ∧
    ((2 : ℚ)/10 + min (max (8/10) 1) (7/2) ≤ 3/2) := by
  refine ⟨?_, ?_, by norm_num [min_def, max_def]⟩
  · norm_num +decide [processElevenlabsJson, processChars, breakCue, finalCue, smoothTransitions,
      smoothCue, pyStrip, pyWordCount, wordCountChars, trimChars, elevenStrongBreaks,
      min_def, max_def]
  · norm_num +decide [breakCue, pyStrip, pyWordCount, wordCountChars, trimChars,
      min_def, max_def]

theorem zip_replicate_same {α β : Type} (a : α) (b : β) :
    ∀ n, (List.replicate n a).zip (List.replicate n b) = List.replicate n (a, b)
  | 0 => rfl
  | n + 1 => by
    simp only [List.replicate_succ, List.zip_cons_cons, zip_replicate_same a b n]

theorem processChars_no_break (char : String) (t : ℚ) (rest : List (String × ℚ))
    (ct : List String) (s lce : ℚ)
    (h1 : char ∉ elevenStrongBreaks) (h2 : ¬(char = " " ∧ t - s > 3/2))
    (h3 : (ct ++ [char]).length < 60)
    (h4 : ∀ c2 t2 rest2, rest = (c2, t2) :: rest2 → ¬(t2 - t > 1/2)) :
    processChars ((char, t) :: rest) ct s lce =
      processChars rest (ct ++ [char]) s (t + 1/10) := by
  simp only [processChars]
  rw [if_neg ?hneg]
  case hneg =>
    intro hcond
    cases rest with
    | nil =>
      simp only [Bool.or_eq_true, Bool.and_eq_true, decide_eq_true_eq, Bool.false_eq_true,
        or_false] at hcond
      rcases hcond with (h | h) | h
      · exact h1 h
      · exact h2 h
      · exact absurd h (by omega)
    | cons p rest2 =>
      obtain ⟨c2, t2⟩ := p
      simp only [Bool.or_eq_true, Bool.and_eq_true, decide_eq_true_eq] at hcond
      rcases hcond with ((h | h) | h) | h
      · exact h1 h
      · exact h2 h
      · exact absurd h (by omega)
      · exact h4 c2 t2 rest2 rfl h

theorem processChars_length_break (char : String) (t : ℚ) (ct : List String) (s lce : ℚ)
    (h3 : 60 ≤ (ct ++ [char]).length) :
    processChars [(char, t)] ct s lce = [breakCue s (t + 1/10) (ct ++ [char])] := by
  simp only [processChars]
  rw [if_pos ?hpos]
  case hpos =>
    have hc : decide (60 ≤ (ct ++ [char]).length) = true := decide_eq_true h3
    rw [hc]
    simp
  simp [processChars]

theorem processChars_replicate_a :
    ∀ (n : ℕ) (ct : List String) (lce : ℚ), ct.length + n = 60 → 1 ≤ n →
      processChars (List.replicate n ("a", (0 : ℚ))) ct 0 lce =
        [breakCue 0 (0 + 1/10) (ct ++ List.replicate n "a")] := by
  intro n
  induction n with
  | zero => intro ct lce h h1; omega
  | succ n ih =>
    intro ct lce hlen _
    rcases Nat.eq_zero_or_pos n with h0 | hpos
    · subst h0
      have hct : ct.length = 59 := by omega
      show processChars [("a", (0 : ℚ))] ct 0 lce = _
      rw [processChars_length_break "a" 0 ct 0 lce (by simp [hct])]
      rfl
    · have hlt : ct.length + 1 < 60 := by omega
      rw [show List.replicate (n + 1) ("a", (0 : ℚ)) =
        ("a", (0 : ℚ)) :: List.replicate n ("a", (0 : ℚ)) from rfl]
      rw [processChars_no_break "a" 0 (List.replicate n ("a", (0 : ℚ))) ct 0 lce
        (by decide) (by norm_num) (by simp; omega) ?hgap]
      case hgap =>
        intro c2 t2 rest2 heq
        obtain ⟨m, rfl⟩ : ∃ m, n = m + 1 := ⟨n - 1, by omega⟩
        rw [List.replicate_succ] at heq
        injection heq with hhead htail
        injection hhead with hc ht
        rw [← ht]
        norm_num
      rw [ih (ct ++ ["a"]) (0 + 1/10) (by simp; omega) hpos]
      rw [List.append_assoc, List.singleton_append, ← List.replicate_succ]

/-- C10: a chunk flushed with the buffer at the 60-character cap gets
`"..."` appended to its stripped text; chunks flushed shorter do not; on
a stream of sixty `"a"` samples the emitted text is the sixty characters
plus `"..."` (63 characters, above the 60-character cap) and is not a
contiguous run of the input character stream. -/
theorem ellipsis_suffix_rule :
    (∀ (s l : ℚ) (ct : List String), 60 ≤ ct.length →
      (breakCue s l ct).text = pyStrip (String.join ct) ++ "...") ∧
    (∀ (s l : ℚ) (ct : List String), ct.length < 60 →
      (breakCue s l ct).text = pyStrip (String.join ct)) ∧
    processElevenlabsJson [(List.replicate 60 "a", List.replicate 60 (0 : ℚ))] =
      .ok [⟨0, 11/10, String.mk (List.replicate 60 'a') ++ "..."⟩] ∧
    (String.mk (List.replicate 60 'a') ++ "...").length = 63 ∧
    occursIn (String.mk (List.replicate 60 'a') ++ "...").data
      (String.join (List.replicate 60 "a")).data = false := by
  refine ⟨?_, ?_, ?_, by decide, by decide⟩
  · intro s l ct h
    have htext : (breakCue s l ct).text =
        (if 60 ≤ ct.length then pyStrip (String.join ct) ++ "..."
         else pyStrip (String.join ct)) := rfl
    rw [htext, if_pos h]
  · intro s l ct h
    have htext : (breakCue s l ct).text =
        (if 60 ≤ ct.length then pyStrip (String.join ct) ++ "..."
         else pyStrip (String.join ct)) := rfl
    rw [htext, if_neg (not_le.mpr h)]
  · unfold processElevenlabsJson
    rw [if_neg (by simp)]
    dsimp only
    simp only [List.map_cons, List.map_nil, List.flatten_cons, List.flatten_nil,
      List.append_nil, zip_replicate_same]
    show Except.ok (smoothTransitions (processChars (List.replicate 60 ("a", (0 : ℚ))) [] 0 0)) =
      Except.ok [⟨0, 11/10, String.mk (List.replicate 60 'a') ++ "..."⟩]
    rw [processChars_replicate_a 60 [] 0 (by simp) (by norm_num)]
    have hbreak : breakCue 0 (0 + 1/10) ([] ++ List.replicate 60 "a") =
        ⟨0, 11/10, String.mk (List.replicate 60 'a') ++ "..."⟩ := by
      have htext : (breakCue 0 (0 + 1/10) ([] ++ List.replicate 60 "a")).text =
          String.mk (List.replicate 60 'a') ++ "..." := by
        have h60 : 60 ≤ ([] ++ List.replicate 60 "a" : List String).length := by decide
        have hx : (breakCue 0 (0 + 1/10) ([] ++ List.replicate 60 "a")).text =
            (if 60 ≤ ([] ++ List.replicate 60 "a" : List String).length then
              pyStrip (String.join ([] ++ List.replicate 60 "a")) ++ "..."
             else pyStrip (String.join ([] ++ List.replicate 60 "a"))) := rfl
        rw [hx, if_pos h60]
        decide
      have hw : pyWordCount (breakCue 0 (0 + 1/10) ([] ++ List.replicate 60 "a")).text = 1 := by
        rw [htext]; decide
      have hrule := break_cue_duration_rule 0 (0 + 1/10) ([] ++ List.replicate 60 "a")
      rcases hrule with ⟨hs, hend, _⟩
      have hB : min (max ((8 : ℚ)/10)
          (1 * (pyWordCount (breakCue 0 (0 + 1/10) ([] ++ List.replicate 60 "a")).text : ℚ)))
          (7/2) = 1 := by
        rw [hw]; norm_num [min_def, max_def]
      rw [hB] at hend
      have : breakCue 0 (0 + 1/10) ([] ++ List.replicate 60 "a") =
          ⟨(breakCue 0 (0 + 1/10) ([] ++ List.replicate 60 "a")).start,
           (breakCue 0 (0 + 1/10) ([] ++ List.replicate 60 "a")).endTime,
           (breakCue 0 (0 + 1/10) ([] ++ List.replicate 60 "a")).text⟩ := rfl
      rw [this, hs, hend, htext]
      norm_num [max_def]
    rw [hbreak]
    rfl

/-- Witness for C10: both suffix rules applied at concrete buffers. -/
theorem ellipsis_suffix_rule_witness :
    60 ≤ (List.replicate 60 "a").length ∧
    (breakCue 0 (1/10) (List.replicate 60 "a")).text =
      pyStrip (String.join (List.replicate 60 "a")) ++ "..." ∧
    (List.replicate 3 "b").length < 60 ∧
    (breakCue 0 (1/10) (List.replicate 3 "b")).text =
      pyStrip (String.join (List.replicate 3 "b")) :=
  ⟨by decide, ellipsis_suffix_rule.1 0 (1/10) _ (by decide),
   by decide, ellipsis_suffix_rule.2.1 0 (1/10) _ (by decide)⟩

/-! ## Lemmas about the punctuation-hierarchy splitter -/

theorem scanBack_some_spec (text breaks : List Char) (lo : ℕ) :
    ∀ i j, scanBack text breaks lo i = some j →
      lo < j ∧ j ≤ i ∧ text.getD (j - 1) '\x00' ∈ breaks ∧
      (∀ k, j < k → k ≤ i → text.getD (k - 1) '\x00' ∉ breaks) := by
  intro i
  induction i with
  | zero => intro j h; simp [scanBack] at h
  | succ i ih =>
    intro j h
    unfold scanBack at h
    split at h
    · exact absurd h (by simp)
    · rename_i hlo
      split at h
      · rename_i hmem
        injection h with h
        subst h
        refine ⟨by omega, le_refl _, by simpa using hmem, ?_⟩
        intro k hk1 hk2
        omega
      · rename_i hmem
        rcases ih j h with ⟨a, b, c, d⟩
        refine ⟨a, by omega, c, ?_⟩
        intro k hk1 hk2
        rcases Nat.lt_or_ge k (i + 1) with hk | hk
        · exact d k hk1 (by omega)
        · have : k = i + 1 := by omega
          subst this
          simpa using hmem

theorem scanBack_none_spec (text breaks : List Char) (lo : ℕ) :
    ∀ i, scanBack text breaks lo i = none →
      ∀ k, lo < k → k ≤ i → text.getD (k - 1) '\x00' ∉ breaks := by
  intro i
  induction i with
  | zero => intro _ k hk1 hk2; omega
  | succ i ih =>
    intro h k hk1 hk2
    unfold scanBack at h
    split at h
    · rename_i hlo
      omega
    · rename_i hlo
      split at h
      · exact absurd h (by simp)
      · rename_i hmem
        rcases Nat.lt_or_ge k (i + 1) with hk | hk
        · exact ih h k hk1 (by omega)
        · have : k = i + 1 := by omega
          subst this
          simpa using hmem

theorem rfindBy_some_spec (text : List Char) (p : Char → Bool) :
    ∀ i j, rfindBy text p i = some j →
      j < i ∧ p (text.getD j '\x00') = true ∧
      (∀ k, j < k → k < i → ¬(p (text.getD k '\x00') = true)) := by
  intro i
  induction i with
  | zero => intro j h; simp [rfindBy] at h
  | succ i ih =>
    intro j h
    unfold rfindBy at h
    split at h
    · rename_i hp
      injection h with h
      subst h
      exact ⟨by omega, hp, fun k hk1 hk2 => by omega⟩
    · rename_i hp
      rcases ih j h with ⟨a, b, c⟩
      refine ⟨by omega, b, ?_⟩
      intro k hk1 hk2
      rcases Nat.lt_or_ge k i with hk | hk
      · exact c k hk1 hk
      · have : k = i := by omega
        subst this
        exact hp

theorem rfindBy_none_spec (text : List Char) (p : Char → Bool) :
    ∀ i, rfindBy text p i = none →
      ∀ k, k < i → ¬(p (text.getD k '\x00') = true) := by
  intro i
  induction i with
  | zero => intro _ k hk; omega
  | succ i ih =>
    intro h k hk
    unfold rfindBy at h
    split at h
    · exact absurd h (by simp)
    · rename_i hp
      rcases Nat.lt_or_ge k i with hk2 | hk2
      · exact ih h k hk2
      · have : k = i := by omega
        subst this
        exact hp

theorem findBestSplitPoint_le (text : List Char) (m : ℕ) (h : m < text.length) :
    findBestSplitPoint text m ≤ m := by
  unfold findBestSplitPoint
  rw [if_neg (not_le.mpr h)]
  cases hs : scanBack text strongBreakChars 0 m with
  | some i => exact (scanBack_some_spec text strongBreakChars 0 m i hs).2.1
  | none =>
    cases hm : scanBack text mediumBreakChars (7 * m / 10) m with
    | some i => exact (scanBack_some_spec text mediumBreakChars (7 * m / 10) m i hm).2.1
    | none =>
      cases hw : scanBack text weakBreakChars (8 * m / 10) m with
      | some i => exact (scanBack_some_spec text weakBreakChars (8 * m / 10) m i hw).2.1
      | none =>
        cases hsp : rfindBy text (fun c => c == ' ') m with
        | some j =>
          have hj := (rfindBy_some_spec text (fun c => c == ' ') m j hsp).1
          dsimp only
          split
          · omega
          · omega
        | none => exact le_refl m

theorem dropWhileLenLe {α : Type} (p : α → Bool) :
    ∀ l : List α, (l.dropWhile p).length ≤ l.length
  | [] => le_refl _
  | a :: l => by
    rw [List.dropWhile_cons]
    split
    · exact le_trans (dropWhileLenLe p l) (Nat.le_succ _)
    · exact le_refl _

theorem trimChars_length_le (cs : List Char) : (trimChars cs).length ≤ cs.length := by
  unfold trimChars
  rw [List.length_reverse]
  refine le_trans (dropWhileLenLe _ _) ?_
  rw [List.length_reverse]
  exact dropWhileLenLe _ _

theorem take_split_length_le (rem : List Char) (m : ℕ) :
    (rem.take (findBestSplitPoint rem m)).length ≤ m ∨
    (rem.take (findBestSplitPoint rem m)).length = rem.length := by
  rcases le_or_lt rem.length m with h | h
  · right
    have hsp : findBestSplitPoint rem m = rem.length := by
      unfold findBestSplitPoint
      rw [if_pos h]
    rw [hsp, List.take_length]
  · left
    rw [List.length_take]
    have := findBestSplitPoint_le rem m h
    omega

theorem subdivideChunksGo_length_le (m : ℕ) :
    ∀ (fuel : ℕ) (rem : List Char) (c : List Char),
      c ∈ subdivideChunksGo m fuel rem → c.length ≤ m := by
  intro fuel
  induction fuel with
  | zero => intro rem c hc; simp [subdivideChunksGo] at hc
  | succ fuel ih =>
    intro rem c hc
    cases rem with
    | nil => simp [subdivideChunksGo] at hc
    | cons a rest =>
      simp only [subdivideChunksGo] at hc
      split at hc
      · exact ih _ c hc
      · rcases List.mem_cons.mp hc with rfl | hc
        · rcases take_split_length_le (a :: rest) m with hle | heq
          · exact le_trans (trimChars_length_le _) hle
          · rcases le_or_lt (a :: rest).length m with h2 | h2
            · exact le_trans (trimChars_length_le _) (le_trans (le_of_eq heq) h2)
            · have := findBestSplitPoint_le (a :: rest) m h2
              refine le_trans (trimChars_length_le _) ?_
              rw [List.length_take]
              omega
        · exact ih _ c hc

theorem whisperTimingGo_texts (e d tc : ℚ) (n : ℕ) :
    ∀ (chunks : List (List Char)) (i : ℕ) (ct : ℚ),
      (whisperTimingGo e d tc n i ct chunks).map Cue.text = chunks.map String.mk := by
  intro chunks
  induction chunks with
  | nil => intro i ct; rfl
  | cons c rest ih =>
    intro i ct
    simp only [whisperTimingGo, List.map_cons]
    rw [ih]

theorem fbsp_eq_strong (t : List Char) (m i : ℕ) (h : m < t.length)
    (hs : scanBack t strongBreakChars 0 m = some i) : findBestSplitPoint t m = i := by
  unfold findBestSplitPoint
  rw [if_neg (not_le.mpr h), hs]

theorem fbsp_eq_medium (t : List Char) (m i : ℕ) (h : m < t.length)
    (hs : scanBack t strongBreakChars 0 m = none)
    (hm : scanBack t mediumBreakChars (7 * m / 10) m = some i) :
    findBestSplitPoint t m = i := by
  unfold findBestSplitPoint
  rw [if_neg (not_le.mpr h), hs, hm]

theorem fbsp_eq_weak (t : List Char) (m i : ℕ) (h : m < t.length)
    (hs : scanBack t strongBreakChars 0 m = none)
    (hm : scanBack t mediumBreakChars (7 * m / 10) m = none)
    (hw : scanBack t weakBreakChars (8 * m / 10) m = some i) :
    findBestSplitPoint t m = i := by
  unfold findBestSplitPoint
  rw [if_neg (not_le.mpr h), hs, hm, hw]

theorem fbsp_eq_space (t : List Char) (m j : ℕ) (h : m < t.length)
    (hs : scanBack t strongBreakChars 0 m = none)
    (hm : scanBack t mediumBreakChars (7 * m / 10) m = none)
    (hw : scanBack t weakBreakChars (8 * m / 10) m = none)
    (hsp : rfindBy t (fun c => c == ' ') m = some j) :
    findBestSplitPoint t m = if 0 < j then j else m := by
  unfold findBestSplitPoint
  rw [if_neg (not_le.mpr h), hs, hm, hw, hsp]

theorem fbsp_eq_hard (t : List Char) (m : ℕ) (h : m < t.length)
    (hs : scanBack t strongBreakChars 0 m = none)
    (hm : scanBack t mediumBreakChars (7 * m / 10) m = none)
    (hw : scanBack t weakBreakChars (8 * m / 10) m = none)
    (hsp : rfindBy t (fun c => c == ' ') m = none) :
    findBestSplitPoint t m = m := by
  unfold findBestSplitPoint
  rw [if_neg (not_le.mpr h), hs, hm, hw, hsp]



theorem splitChoiceSpec_holds (t : List Char) (m : ℕ) (h : m < t.length) :
    SplitChoiceSpec t m := by
  have hnostrong : (∀ j, 0 < j → j ≤ m → t.getD (j - 1) '\x00' ∉ strongBreakChars) →
      scanBack t strongBreakChars 0 m = none := by
    intro hno
    cases hs : scanBack t strongBreakChars 0 m with
    | none => rfl
    | some i =>
      rcases scanBack_some_spec t strongBreakChars 0 m i hs with ⟨a, b, c, _⟩
      exact absurd c (hno i a b)
  have hnomedium : (∀ j, 7 * m / 10 < j → j ≤ m → t.getD (j - 1) '\x00' ∉ mediumBreakChars) →
      scanBack t mediumBreakChars (7 * m / 10) m = none := by
    intro hno
    cases hs : scanBack t mediumBreakChars (7 * m / 10) m with
    | none => rfl
    | some i =>
      rcases scanBack_some_spec t mediumBreakChars (7 * m / 10) m i hs with ⟨a, b, c, _⟩
      exact absurd c (hno i a b)
  have hnoweak : (∀ j, 8 * m / 10 < j → j ≤ m → t.getD (j - 1) '\x00' ∉ weakBreakChars) →
      scanBack t weakBreakChars (8 * m / 10) m = none := by
    intro hno
    cases hs : scanBack t weakBreakChars (8 * m / 10) m with
    | none => rfl
    | some i =>
      rcases scanBack_some_spec t weakBreakChars (8 * m / 10) m i hs with ⟨a, b, c, _⟩
      exact absurd c (hno i a b)
  refine ⟨findBestSplitPoint_le t m h, ?_, ?_, ?_, ?_, ?_⟩
  · intro hex
    cases hs : scanBack t strongBreakChars 0 m with
    | none =>
      rcases hex with ⟨j0, hj1, hj2, hj3⟩
      exact absurd hj3 (scanBack_none_spec t strongBreakChars 0 m hs j0 hj1 hj2)
    | some i =>
      rcases scanBack_some_spec t strongBreakChars 0 m i hs with ⟨a, _, c, d⟩
      rw [fbsp_eq_strong t m i h hs]
      exact ⟨a, c, d⟩
  · intro hno hex
    have hs := hnostrong hno
    cases hmed : scanBack t mediumBreakChars (7 * m / 10) m with
    | none =>
      rcases hex with ⟨j0, hj1, hj2, hj3⟩
      exact absurd hj3 (scanBack_none_spec t mediumBreakChars (7 * m / 10) m hmed j0 hj1 hj2)
    | some i =>
      rcases scanBack_some_spec t mediumBreakChars (7 * m / 10) m i hmed with ⟨a, _, c, d⟩
      rw [fbsp_eq_medium t m i h hs hmed]
      exact ⟨a, c, d⟩
  · intro hno1 hno2 hex
    have hs := hnostrong hno1
    have hmed := hnomedium hno2
    cases hwk : scanBack t weakBreakChars (8 * m / 10) m with
    | none =>
      rcases hex with ⟨j0, hj1, hj2, hj3⟩
      exact absurd hj3 (scanBack_none_spec t weakBreakChars (8 * m / 10) m hwk j0 hj1 hj2)
    | some i =>
      rcases scanBack_some_spec t weakBreakChars (8 * m / 10) m i hwk with ⟨a, _, c, d⟩
      rw [fbsp_eq_weak t m i h hs hmed hwk]
      exact ⟨a, c, d⟩
  · intro hno1 hno2 hno3 hex
    have hs := hnostrong hno1
    have hmed := hnomedium hno2
    have hwk := hnoweak hno3
    rcases hex with ⟨j0, hj1, hj2, hj3⟩
    cases hsp : rfindBy t (fun c => c == ' ') m with
    | none =>
      have := rfindBy_none_spec t (fun c => c == ' ') m hsp j0 hj2
      simp only [beq_iff_eq] at this
      exact absurd hj3 this
    | some j =>
      rcases rfindBy_some_spec t (fun c => c == ' ') m j hsp with ⟨a, b, c⟩
      simp only [beq_iff_eq] at b c
      have hj0j : j0 ≤ j := by
        by_contra hcon
        push_neg at hcon
        exact absurd hj3 (c j0 hcon hj2)
      have hjpos : 0 < j := by omega
      rw [fbsp_eq_space t m j h hs hmed hwk hsp, if_pos hjpos]
      exact ⟨hjpos, a, b, c⟩
  · intro hno1 hno2 hno3 hnosp
    have hs := hnostrong hno1
    have hmed := hnomedium hno2
    have hwk := hnoweak hno3
    cases hsp : rfindBy t (fun c => c == ' ') m with
    | none => exact fbsp_eq_hard t m h hs hmed hwk hsp
    | some j =>
      rcases rfindBy_some_spec t (fun c => c == ' ') m j hsp with ⟨a, b, _⟩
      simp only [beq_iff_eq] at b
      have hj0 : j = 0 := by
        by_contra hcon
        exact hnosp j (by omega) a b
      rw [fbsp_eq_space t m j h hs hmed hwk hsp, hj0]
      rfl

/-- C5 (amended): no sub-chunk of the segment-level splitter exceeds
`max_chars`, and the split point follows the punctuation hierarchy — last
strong break at or before the limit; else last medium break past 70% of
the limit; else last weak break past 80% of the limit; else the last
SPACE character (`' '`, not arbitrary whitespace, and only at a positive
index) before the limit; else a hard cut at the limit. -/
theorem punctuation_splitter_spec :
    (∀ (text : String) (st en : ℚ) (m : ℕ) (c : Cue),
      c ∈ subdivideWhisperSegment text st en m → c.text.length ≤ m) ∧
    (∀ (t : List Char) (m : ℕ), 0 < m → m < t.length → SplitChoiceSpec t m) := by
  constructor
  · intro text st en m c hc
    simp only [subdivideWhisperSegment] at hc
    split at hc
    · simp at hc
    · split at hc
      · rename_i hne hlen
        simp only [List.mem_singleton] at hc
        subst hc
        exact hlen
      · rename_i hne hlen
        have hmem : c.text ∈ (whisperTimingGo en (en - st)
            (((subdivideChunksGo m (pyStrip text).data.length (pyStrip text).data).map
              List.length).sum : ℕ)
            (subdivideChunksGo m (pyStrip text).data.length (pyStrip text).data).length 0 st
            (subdivideChunksGo m (pyStrip text).data.length (pyStrip text).data)).map
            Cue.text :=
          List.mem_map_of_mem Cue.text hc
        rw [whisperTimingGo_texts] at hmem
        rcases List.mem_map.mp hmem with ⟨chunk, hchunk, htext⟩
        have hlen2 := subdivideChunksGo_length_le m _ _ chunk hchunk
        rw [← htext]
        simpa using hlen2
  · intro t m _ h
    exact splitChoiceSpec_holds t m h



/-- Counterexample for C5 as stated: on a 46-character text whose only
whitespace is a tab at index 21 (no punctuation, no space), the code
hard-cuts at the limit 40 even though "the last whitespace before the
limit" exists; the split point the claim describes would be 21. -/
theorem whitespace_split_counterexample :
    findBestSplitPoint (List.replicate 21 'a' ++ '\t' :: List.replicate 24 'a') 40 = 40 ∧
    claimSplitPoint (List.replicate 21 'a' ++ '\t' :: List.replicate 24 'a') 40 = 21 ∧
    ((List.replicate 21 'a' ++ '\t' :: List.replicate 24 'a').getD 21 '\x00').isWhitespace =
      true ∧
    (21 : ℕ) < 40 := by decide

/-- Witness for C5: the length bound at a concrete short segment and the
hierarchy specification at a concrete text and limit. -/
theorem punctuation_splitter_spec_witness :
    (⟨0, 1, "Hi"⟩ : Cue) ∈ subdivideWhisperSegment "Hi" 0 1 50 ∧
    (⟨0, 1, "Hi"⟩ : Cue).text.length ≤ 50 ∧
    0 < 3 ∧ 3 < ("abcdef".data).length ∧ SplitChoiceSpec "abcdef".data 3 := by
  have hmem : (⟨0, 1, "Hi"⟩ : Cue) ∈ subdivideWhisperSegment "Hi" 0 1 50 := by
    simp [subdivideWhisperSegment, pyStrip, trimChars]
  exact ⟨hmem, punctuation_splitter_spec.1 "Hi" 0 1 50 _ hmem, by decide, by decide,
    punctuation_splitter_spec.2 "abcdef".data 3 (by decide) (by decide)⟩

/-! ## The format detector -/













theorem pyAllKeysIn_obj (f : List (String × Json)) (ks : List String) :
    pyAllKeysIn (Json.obj f) ks = .ok (ks.all (fun k => hasKey f k)) := by
  induction ks with
  | nil => rfl
  | cons k ks ih =>
    simp only [pyAllKeysIn, pyContains, List.all_cons]
    cases hk : hasKey f k with
    | false =>
      rw [show (f.any fun kv => kv.1 == k) = false from hk]
      simp
    | true =>
      rw [show (f.any fun kv => kv.1 == k) = true from hk]
      simp [ih]

/-- Counterexample for C6 as stated: the payload
`["characters character_start_times_seconds"]` (a list holding one
string) matches neither shape, yet `detect_format` returns
`'elevenlabs'` instead of raising: Python's `key in first_item` is a
substring test when the first item is a string, and both key names occur
in it. -/
theorem detect_membership_counterexample :
    detectJsonFormat (Json.arr [Json.str "characters character_start_times_seconds"]) =
      .ok .elevenlabs ∧
    characterShape (Json.arr [Json.str "characters character_start_times_seconds"]) = false ∧
    segmentShape (Json.arr [Json.str "characters character_start_times_seconds"]) = false :=
  ⟨rfl, rfl, rfl⟩

/-- C6 (amended): on well-shaped payloads (objects, and arrays of
objects — the shapes Python's membership operators treat as key tests)
`_detect_json_format` returns `'whisper'` exactly on the segment-level
shape, `'elevenlabs'` exactly on the character-level shape, and raises
`ValueError` exactly when neither matches; in particular it raises on
`{"foo": "bar"}`, on `[]` and on `{}`.  Outside the well-shaped set the
claim fails (see the counterexample): `in` is a substring/element test,
so e.g. a list whose first item is a string containing both key names is
reported as `'elevenlabs'`. -/
theorem detect_format_spec (data : Json) (hws : wellShapedPayload data) :
    (detectJsonFormat data = .ok .whisper ↔ segmentShape data = true) ∧
    (detectJsonFormat data = .ok .elevenlabs ↔ characterShape data = true) ∧
    (detectJsonFormat data = .error .valueError ↔
      (segmentShape data = false ∧ characterShape data = false)) ∧
    detectJsonFormat (Json.obj [("foo", Json.str "bar")]) = .error .valueError ∧
    detectJsonFormat (Json.arr []) = .error .valueError ∧
    detectJsonFormat (Json.obj []) = .error .valueError := by
  have hmain : (detectJsonFormat data = .ok .whisper ↔ segmentShape data = true) ∧
      (detectJsonFormat data = .ok .elevenlabs ↔ characterShape data = true) ∧
      (detectJsonFormat data = .error .valueError ↔
        (segmentShape data = false ∧ characterShape data = false)) := by
    rcases hws with ⟨fields, rfl, hhead⟩ | ⟨items, rfl, hobj⟩
    · cases hany : fields.any (fun kv => kv.1 == "segments") with
      | false =>
        have hfind : fields.find? (fun kv => kv.1 == "segments") = none := by
          rw [List.find?_eq_none]
          intro kv hkv
          have := List.any_eq_false.mp hany kv hkv
          simpa using this
        have hdet : detectJsonFormat (Json.obj fields) = .error .valueError := by
          unfold detectJsonFormat
          simp only [pyContains, hany]
          rfl
        have hseg : segmentShape (Json.obj fields) = false := by
          simp only [segmentShape, hfind]
        rw [hdet, hseg]
        simp [characterShape]
      | true =>
        have hex : ∃ kv ∈ fields, (kv.1 == "segments") = true := List.any_eq_true.mp hany
        have hfs : (fields.find? (fun kv => kv.1 == "segments")).isSome := by
          rw [List.find?_isSome]
          exact hex
        obtain ⟨kv, hfind⟩ := Option.isSome_iff_exists.mp hfs
        obtain ⟨kname, kval⟩ := kv
        have hkvp0 := List.find?_some hfind
        have hkvp : (kname == "segments") = true := hkvp0
        have hkvmem : (kname, kval) ∈ fields := List.mem_of_find?_eq_some hfind
        have hho : headIsObj kval := hhead (kname, kval) hkvmem (by simpa using hkvp)
        have hseg1 : segmentShape (Json.obj fields) = segRecordsShape kval := by
          simp only [segmentShape, hfind]
          cases kval with
          | arr l =>
            cases l with
            | nil => rfl
            | cons h t => cases h <;> rfl
          | null => rfl
          | bool b => rfl
          | num q => rfl
          | str s => rfl
          | obj f2 => rfl
        cases hval : kval with
        | arr l =>
          cases l with
          | nil =>
            have hdet : detectJsonFormat (Json.obj fields) = .error .valueError := by
              unfold detectJsonFormat
              simp only [pyContains, hany, pyGetItem, hfind, hval]
              rfl
            rw [hdet, hseg1, hval]
            simp [characterShape, segRecordsShape]
          | cons first rest =>
            rw [hval] at hho
            obtain ⟨f, rfl⟩ := hho
            have hdet : detectJsonFormat (Json.obj fields) =
                (match pyAllKeysIn (Json.obj f) ["start", "end", "text"] with
                 | .error e => .error e
                 | .ok true => .ok .whisper
                 | .ok false => elevenlabsCheck (Json.obj fields)) := by
              unfold detectJsonFormat
              simp only [pyContains, hany, pyGetItem, hfind, hval]
            rw [pyAllKeysIn_obj] at hdet
            rw [hdet, hseg1, hval]
            cases h1 : hasKey f "start" <;> cases h2 : hasKey f "end" <;>
              cases h3 : hasKey f "text" <;>
              simp [h1, h2, h3, elevenlabsCheck, characterShape, segRecordsShape]
        | null =>
          have hdet : detectJsonFormat (Json.obj fields) = .error .valueError := by
            unfold detectJsonFormat
            simp only [pyContains, hany, pyGetItem, hfind, hval]
            rfl
          rw [hdet, hseg1, hval]
          simp [characterShape, segRecordsShape]
        | bool b =>
          have hdet : detectJsonFormat (Json.obj fields) = .error .valueError := by
            unfold detectJsonFormat
            simp only [pyContains, hany, pyGetItem, hfind, hval]
            rfl
          rw [hdet, hseg1, hval]
          simp [characterShape, segRecordsShape]
        | num q =>
          have hdet : detectJsonFormat (Json.obj fields) = .error .valueError := by
            unfold detectJsonFormat
            simp only [pyContains, hany, pyGetItem, hfind, hval]
            rfl
          rw [hdet, hseg1, hval]
          simp [characterShape, segRecordsShape]
        | str s =>
          have hdet : detectJsonFormat (Json.obj fields) = .error .valueError := by
            unfold detectJsonFormat
            simp only [pyContains, hany, pyGetItem, hfind, hval]
            rfl
          rw [hdet, hseg1, hval]
          simp [characterShape, segRecordsShape]
        | obj f2 =>
          have hdet : detectJsonFormat (Json.obj fields) = .error .valueError := by
            unfold detectJsonFormat
            simp only [pyContains, hany, pyGetItem, hfind, hval]
            rfl
          rw [hdet, hseg1, hval]
          simp [characterShape, segRecordsShape]
    · have hany : (items.any (fun j => jsonEqStr j "segments")) = false := by
        rw [List.any_eq_false]
        intro j hj
        rcases hobj j hj with ⟨f, rfl⟩
        simp [jsonEqStr]
      cases items with
      | nil =>
        have hdet : detectJsonFormat (Json.arr []) = .error .valueError := rfl
        rw [hdet]
        simp [segmentShape, characterShape]
      | cons first rest =>
        rcases hobj first (List.mem_cons_self first rest) with ⟨f, rfl⟩
        have hdet1 : detectJsonFormat (Json.arr (Json.obj f :: rest)) =
            elevenlabsCheck (Json.arr (Json.obj f :: rest)) := by
          unfold detectJsonFormat
          simp only [pyContains, hany]
        have hec : elevenlabsCheck (Json.arr (Json.obj f :: rest)) =
            (match pyAllKeysIn (Json.obj f) ["characters", "character_start_times_seconds"] with
             | .error e => .error e
             | .ok true => .ok .elevenlabs
             | .ok false => .error .valueError) := rfl
        rw [pyAllKeysIn_obj] at hec
        rw [hdet1, hec]
        cases h1 : hasKey f "characters" <;>
          cases h2 : hasKey f "character_start_times_seconds" <;>
          simp [h1, h2, segmentShape, characterShape]
  exact ⟨hmain.1, hmain.2.1, hmain.2.2, rfl, rfl, rfl⟩

/-- Witness for C6: the detector specification applied to a concrete
well-shaped Whisper payload. -/
theorem detect_format_spec_witness :
    wellShapedPayload (Json.obj [("segments", Json.arr
      [Json.obj [("start", Json.num 0), ("end", Json.num 1), ("text", Json.str "x")]])]) ∧
    ((detectJsonFormat (Json.obj [("segments", Json.arr
        [Json.obj [("start", Json.num 0), ("end", Json.num 1), ("text", Json.str "x")]])]) =
        .ok .whisper ↔
      segmentShape (Json.obj [("segments", Json.arr
        [Json.obj [("start", Json.num 0), ("end", Json.num 1), ("text", Json.str "x")]])]) =
        true) ∧
    (detectJsonFormat (Json.obj [("segments", Json.arr
        [Json.obj [("start", Json.num 0), ("end", Json.num 1), ("text", Json.str "x")]])]) =
        .ok .elevenlabs ↔
      characterShape (Json.obj [("segments", Json.arr
        [Json.obj [("start", Json.num 0), ("end", Json.num 1), ("text", Json.str "x")]])]) =
        true) ∧
    (detectJsonFormat (Json.obj [("segments", Json.arr
        [Json.obj [("start", Json.num 0), ("end", Json.num 1), ("text", Json.str "x")]])]) =
        .error .valueError ↔
      (segmentShape (Json.obj [("segments", Json.arr
        [Json.obj [("start", Json.num 0), ("end", Json.num 1), ("text", Json.str "x")]])]) =
        false ∧
       characterShape (Json.obj [("segments", Json.arr
        [Json.obj [("start", Json.num 0), ("end", Json.num 1), ("text", Json.str "x")]])]) =
        false)) ∧
    detectJsonFormat (Json.obj [("foo", Json.str "bar")]) = .error .valueError ∧
    detectJsonFormat (Json.arr []) = .error .valueError ∧
    detectJsonFormat (Json.obj []) = .error .valueError) := by
  have hws : wellShapedPayload (Json.obj [("segments", Json.arr
      [Json.obj [("start", Json.num 0), ("end", Json.num 1), ("text", Json.str "x")]])]) := by
    refine Or.inl ⟨_, rfl, ?_⟩
    intro kv hkv _
    simp only [List.mem_singleton] at hkv
    subst hkv
    exact ⟨_, rfl⟩
  exact ⟨hws, detect_format_spec _ hws⟩
